import Mathlib

/-!
Shallow embedding of `src/activate/etc_files/etc_tree.rs` from the
system-manager repository.

Modelling choices:
* `EtcFileStatus` mirrors the Rust enum of the same name.
* `EtcTree` mirrors the Rust struct: a status, the absolute path the node
  denotes, and the children map.  The Rust `im::HashMap<String, EtcTree>` is
  modelled as an association list with distinct keys; `alter` replaces an
  entry in place (or appends a fresh entry at the end), `get` returns the
  first entry with the given key.  All operations of the source only read or
  rewrite single keys, so the association-list model is observationally the
  hash map up to entry order, which the source never relies on.
* Absolute normalized paths are modelled as their lists of `Normal`
  components (`List String`); the root path `/` is `[]`.  The Rust code
  walks `path.components()`, skipping the leading `RootDir` marker and
  aborting (`panic!` / `todo!`) on any other non-`Normal` component, so on
  the supported domain of the operations (absolute normalized paths) the
  component streams are exactly these lists.
* `delete_action` closures become values of type
  `List String → EtcFileStatus → Bool`.
-/

/-- Mirrors Rust `enum EtcFileStatus { Managed, Unmanaged }`. -/
inductive EtcFileStatus where
  | managed
  | unmanaged
deriving DecidableEq, Repr

/-- Mirrors `EtcFileStatus::merge`: `(Unmanaged, Unmanaged) => Unmanaged`,
any other combination yields `Managed`. -/
def EtcFileStatus.merge : EtcFileStatus → EtcFileStatus → EtcFileStatus
  | .unmanaged, .unmanaged => .unmanaged
  | _, _ => .managed

/-- Mirrors Rust `struct EtcTree { status, path, nested }`; `nested` is the
association-list model of `im::HashMap<String, EtcTree>`. -/
inductive EtcTree where
  | mk (status : EtcFileStatus) (path : List String) (nested : List (String × EtcTree))

/-- Field accessor for `status`. -/
def EtcTree.status : EtcTree → EtcFileStatus
  | .mk s _ _ => s

/-- Field accessor for `path`. -/
def EtcTree.path : EtcTree → List String
  | .mk _ p _ => p

/-- Field accessor for `nested`. -/
def EtcTree.nested : EtcTree → List (String × EtcTree)
  | .mk _ _ n => n

/-- `HashMap::get`: first entry with the given key. -/
def lookupKey (k : String) : List (String × EtcTree) → Option EtcTree
  | [] => none
  | (k', t) :: ts => if k' = k then some t else lookupKey k ts

/-- `HashMap::contains_key` for the association-list model. -/
def containsKey (k : String) : List (String × EtcTree) → Bool
  | [] => false
  | (k', _) :: ts => k' = k || containsKey k ts

/-- `HashMap::insert` (also the write-back half of `alter` when the altering
function returns `Some`): replace the entry in place, or append it. -/
def insertKV : List (String × EtcTree) → String → EtcTree → List (String × EtcTree)
  | [], k, v => [(k, v)]
  | (k', v') :: ts, k, v => if k' = k then (k, v) :: ts else (k', v') :: insertKV ts k v

/-- Mirrors `EtcTree::with_status`. -/
def EtcTree.withStatus (path : List String) (status : EtcFileStatus) : EtcTree :=
  .mk status path []

/-- Mirrors `EtcTree::new`: a fresh unmanaged node. -/
def EtcTree.newNode (path : List String) : EtcTree :=
  EtcTree.withStatus path .unmanaged

/-- Mirrors `EtcTree::root_node`: unmanaged node for the root path, no
children. -/
def EtcTree.rootNode : EtcTree :=
  EtcTree.newNode []

/-- Replace the `status` field, as the Rust
`new_tree.status = ...` field assignment does. -/
def EtcTree.setStatus : EtcTree → EtcFileStatus → EtcTree
  | .mk _ p n, s => .mk s p n

/-- Mirrors the inner `go` of `EtcTree::get_status`: descend the path's
components; a missing key short-circuits to `Unmanaged`; exhausting the
components returns the current node's status.  The `RootDir` component of
the Rust iterator is already stripped by the path model. -/
def EtcTree.getStatus : EtcTree → List String → EtcFileStatus
  | t, [] => t.status
  | t, n :: rest =>
      match lookupKey n t.nested with
      | some subtree => subtree.getStatus rest
      | none => .unmanaged

/-- Mirrors `EtcTree::is_managed`. -/
def EtcTree.isManaged (t : EtcTree) (p : List String) : Bool :=
  t.getStatus p == EtcFileStatus.managed

/-- Mirrors the inner `go` of `EtcTree::register_managed_entry`.  The Rust
`alter` call looks the child up, creates it when missing (managed exactly
when `components.peek()` is exhausted, i.e. `rest = []`), recurses into it,
and writes it back under its name; `lookupKey` plus `insertKV` is that
`alter`.  The accumulator `acc` plays the role of the `path` argument, the
leading `RootDir` already folded in (`acc = []` is `/`). -/
def registerGo : EtcTree → List String → List String → EtcTree
  | t, [], _ => t
  | .mk s p nested, n :: rest, acc =>
      let newPath := acc ++ [n]
      let child :=
        match lookupKey n nested with
        | some c => c
        | none =>
            EtcTree.withStatus newPath
              (if rest = [] then EtcFileStatus.managed else EtcFileStatus.unmanaged)
      .mk s p (insertKV nested n (registerGo child rest newPath))

/-- Mirrors `EtcTree::register_managed_entry`. -/
def EtcTree.registerManagedEntry (t : EtcTree) (p : List String) : EtcTree :=
  registerGo t p []

mutual

/-- Mirrors `EtcTree::deactivate`: rebuild the children map by recursively
deactivating every child, then decide this node's fate: a node with
surviving children is kept; a childless managed node is kept or dropped
according to `delete_action`; a childless unmanaged node is silently
dropped. -/
def EtcTree.deactivate (da : List String → EtcFileStatus → Bool) : EtcTree → Option EtcTree
  | .mk s p nested =>
      let nested' := deactivateNested da nested
      if nested'.isEmpty then
        match s with
        | .managed =>
            if da p EtcFileStatus.managed then none else some (.mk s p nested')
        | .unmanaged => none
      else some (.mk s p nested')

/-- The fold over `self.nested.keys()` in `EtcTree::deactivate`: each key is
altered with `subtree.and_then(|s| s.deactivate(...))`, so a key survives,
with the replacement subtree, exactly when the recursive call returns
`Some`. -/
def deactivateNested (da : List String → EtcFileStatus → Bool) :
    List (String × EtcTree) → List (String × EtcTree)
  | [] => []
  | (k, t) :: ts =>
      match t.deactivate da with
      | some t' => (k, t') :: deactivateNested da ts
      | none => deactivateNested da ts

end

/-- The `to_deactivate` fold of `EtcTree::update_state`: for every key of
`other.nested` that is not a key of the original `self.nested`, deactivate
the other-side subtree and insert the replacement, if any, into the
accumulator. -/
def deactPass (da : List String → EtcFileStatus → Bool)
    (orig : List (String × EtcTree)) :
    List (String × EtcTree) → List (String × EtcTree) → List (String × EtcTree)
  | base, [] => base
  | base, (k, ot) :: rest =>
      deactPass da orig
        (if containsKey k orig then base
         else
           match ot.deactivate da with
           | some t' => insertKV base k t'
           | none => base)
        rest

mutual

/-- Mirrors `EtcTree::update_state`.  The two folds of the source partition
`other.nested` by key against `self.nested`: `relative_complement` (keys
not in `self`) drives `deactivate` plus insertion, `intersection` (keys in
both) drives the recursive merge.  Here each pass walks `other.nested`
directly and tests key membership in the original `self.nested` (`orig`),
which is the same partition. -/
def EtcTree.updateState (da : List String → EtcFileStatus → Bool) :
    EtcTree → EtcTree → Option EtcTree
  | .mk s p nested, .mk _os _op onested =>
      let deactivated := deactPass da nested nested onested
      let merged := mergePass da nested deactivated onested
      some (.mk s p merged)
termination_by _ other => (sizeOf other, 0)

/-- The `to_merge` fold of `EtcTree::update_state`: for every key of
`other.nested` that is also a key of the original `self.nested`, alter that
key of the accumulator with the recursive `update_state` merge. -/
def mergePass (da : List String → EtcFileStatus → Bool)
    (orig : List (String × EtcTree)) (base : List (String × EtcTree)) :
    List (String × EtcTree) → List (String × EtcTree)
  | [] => base
  | (k, ot) :: rest =>
      mergePass da orig (if containsKey k orig then alterUpd da base k ot else base) rest
termination_by l => (sizeOf l, 0)

/-- The `alter` in the `to_merge` fold: `subtree.and_then(|s|
s.update_state(other_tree).map(|t| { t.status = t.status.merge(other_tree.status); t }))`.
A missing key stays missing; a present key is replaced by the merged
subtree with its status OR-ed with the other side's status, or removed when
the recursive call returns `None`. -/
def alterUpd (da : List String → EtcFileStatus → Bool) :
    List (String × EtcTree) → String → EtcTree → List (String × EtcTree)
  | [], _, _ => []
  | (k', t) :: ts, k, ot =>
      if k' = k then
        match t.updateState da ot with
        | some nt => (k', nt.setStatus (nt.status.merge ot.status)) :: ts
        | none => ts
      else (k', t) :: alterUpd da ts k ot
termination_by base _ ot => (sizeOf ot, sizeOf base)

end

mutual

/-- Instrumented `EtcTree::deactivate`: identical control flow, but also
returns the list of `(path, status)` arguments passed to `delete_action`,
in call order.  Used to reason about how often and where the callback is
invoked. -/
def EtcTree.deactivateI (da : List String → EtcFileStatus → Bool) :
    EtcTree → Option EtcTree × List (List String × EtcFileStatus)
  | .mk s p nested =>
      let r := deactivateNestedI da nested
      if r.1.isEmpty then
        match s with
        | .managed =>
            if da p EtcFileStatus.managed then (none, r.2 ++ [(p, EtcFileStatus.managed)])
            else (some (.mk s p r.1), r.2 ++ [(p, EtcFileStatus.managed)])
        | .unmanaged => (none, r.2)
      else (some (.mk s p r.1), r.2)

/-- Instrumented `deactivateNested`, collecting the `delete_action` calls of
all children in order. -/
def deactivateNestedI (da : List String → EtcFileStatus → Bool) :
    List (String × EtcTree) → List (String × EtcTree) × List (List String × EtcFileStatus)
  | [] => ([], [])
  | (k, t) :: ts =>
      let r := t.deactivateI da
      let rs := deactivateNestedI da ts
      match r.1 with
      | some t' => ((k, t') :: rs.1, r.2 ++ rs.2)
      | none => (rs.1, r.2 ++ rs.2)

end

mutual

/-- The spec's structural invariant at a single tree: every node (this one
included) with an empty children map has status `Managed`. -/
def noDangling : EtcTree → Bool
  | .mk s _ nested => (!nested.isEmpty || s == EtcFileStatus.managed) && noDanglingNested nested

/-- `noDangling` for every tree of a children map. -/
def noDanglingNested : List (String × EtcTree) → Bool
  | [] => true
  | (_, t) :: ts => noDangling t && noDanglingNested ts

end

/-- The spec's structural invariant away from the root: every strict
subtree satisfies `noDangling` (the root itself is exempt). -/
def childrenOk : EtcTree → Bool
  | .mk _ _ nested => noDanglingNested nested

/-- Whether the tree has a node at path `p` (descending the children maps). -/
def hasNode : EtcTree → List String → Bool
  | _, [] => true
  | t, n :: rest =>
      match lookupKey n t.nested with
      | some c => hasNode c rest
      | none => false

/-- Keys of an association list are pairwise distinct. -/
def nodupKeys : List (String × EtcTree) → Bool
  | [] => true
  | (k, _) :: ts => !containsKey k ts && nodupKeys ts

mutual

/-- Number of nodes of a tree. -/
def nodeCount : EtcTree → Nat
  | .mk _ _ nested => 1 + nodeCountNested nested

/-- Total number of nodes of the trees of a children map. -/
def nodeCountNested : List (String × EtcTree) → Nat
  | [] => 0
  | (_, t) :: ts => nodeCount t + nodeCountNested ts

end

mutual

/-- Well-formed bookkeeping of the `path` field: children maps have
pairwise distinct keys and each child's recorded path is its parent's path
extended by its own key.  Every tree built by the operations of this file
starting from `rootNode` satisfies this. -/
def wfPaths : EtcTree → Bool
  | .mk _ p nested => nodupKeys nested && wfPathsNested p nested

/-- `wfPaths` for a children map under a parent path `p`. -/
def wfPathsNested (p : List String) : List (String × EtcTree) → Bool
  | [] => true
  | (k, t) :: ts => (t.path == p ++ [k]) && wfPaths t && wfPathsNested p ts

end

/-- Build a tree by registering a list of paths into a fresh root, the way
the external driver builds the new generation. -/
def buildTree (ps : List (List String)) : EtcTree :=
  ps.foldl EtcTree.registerManagedEntry EtcTree.rootNode

/-- The four observable outcomes of reading the state file in
`EtcTree::from_file`: `state_file.is_file()` is false; the file exists but
`File::open` fails (that error is propagated by the `?` operator); the file
opens but `serde_json::from_reader` fails; the file parses to a tree. -/
inductive StateFileRead where
  | missing
  | unreadable
  | unparsable
  | parsed (t : EtcTree)

/-- Mirrors the control flow of `EtcTree::from_file`, with the filesystem
and parser outcomes abstracted into `StateFileRead`: a missing file and a
parse failure both fall through to `Ok(Self::default())` (a fresh root
node; the parse failure is additionally logged), a successful parse is
returned as is, and only an open failure is propagated as an error. -/
def fromFile : StateFileRead → Except Unit EtcTree
  | .missing => .ok .rootNode
  | .unreadable => .error ()
  | .unparsable => .ok .rootNode
  | .parsed t => .ok t

/-! Concrete scenarios, taken from the unit tests of the source file. -/

/-- The new-generation tree (the `self` argument of `update_state`) of the
reconciliation scenario (the unit test `etc_tree_update_state`):
registrations for `/foo/bar`, `/foo2`, `/foo2/baz`, `/foo2/baz/bar`,
`/foo2/baz2`, `/foo2/baz2/bar`, `/foo3/baz2/bar`. -/
def scTree1 : EtcTree :=
  buildTree
    [["foo", "bar"], ["foo2"], ["foo2", "baz"], ["foo2", "baz", "bar"],
     ["foo2", "baz2"], ["foo2", "baz2", "bar"], ["foo3", "baz2", "bar"]]

/-- The previous-generation tree (the `other` argument of `update_state`)
of the reconciliation scenario: registrations for `/foo/bar`, `/foo3/bar`,
`/foo4`, `/foo4/bar`, `/foo5`, `/foo5/bar`. -/
def scTree2 : EtcTree :=
  buildTree
    [["foo", "bar"], ["foo3", "bar"], ["foo4"], ["foo4", "bar"],
     ["foo5"], ["foo5", "bar"]]

/-- The delete action of the scenarios: false exactly for `/foo5/bar`. -/
def scDelete : List String → EtcFileStatus → Bool :=
  fun p _ => !(p == ["foo5", "bar"])

/-- A small tree for the deactivation scenario: registrations for `/foo4`,
`/foo4/bar`, `/foo5`, `/foo5/bar`. -/
def scTree5 : EtcTree :=
  buildTree [["foo4"], ["foo4", "bar"], ["foo5"], ["foo5", "bar"]]

/-- The fourteen registrations of the unit test `etc_tree_get_status`. -/
def scTreeBig : EtcTree :=
  buildTree
    [["foo", "bar"], ["foo2"], ["foo2", "baz"], ["foo2", "baz", "bar"],
     ["foo2", "baz2"], ["foo2", "baz2", "bar"], ["foo3", "baz2", "bar"],
     ["foo4"], ["foo4", "baz"], ["foo4", "baz", "bar"],
     ["foo5"], ["foo5", "baz"], ["foo5", "baz2"], ["foo5", "baz", "bar"]]

/-! Helper lemmas about the association-list map operations. -/

theorem lookupKey_insertKV (l : List (String × EtcTree)) (k m : String) (v : EtcTree) :
    lookupKey m (insertKV l k v) = if k = m then some v else lookupKey m l := by
  induction l with
  | nil => simp [insertKV, lookupKey]
  | cons hd tl ih =>
      obtain ⟨k', v'⟩ := hd
      by_cases hkk : k' = k
      · subst hkk
        by_cases hm : k' = m <;> simp [insertKV, lookupKey, hm]
      · by_cases hm : k' = m
        · subst hm
          have : ¬ k = k' := fun h => hkk h.symm
          simp [insertKV, lookupKey, hkk, this]
        · simp [insertKV, lookupKey, hkk, hm, ih]

theorem insertKV_insertKV (l : List (String × EtcTree)) (k : String) (v w : EtcTree) :
    insertKV (insertKV l k v) k w = insertKV l k w := by
  induction l with
  | nil => simp [insertKV]
  | cons hd tl ih =>
      obtain ⟨k', v'⟩ := hd
      by_cases hkk : k' = k <;> simp [insertKV, hkk, ih]

theorem insertKV_ne_nil (l : List (String × EtcTree)) (k : String) (v : EtcTree) :
    insertKV l k v ≠ [] := by
  cases l with
  | nil => simp [insertKV]
  | cons hd tl =>
      obtain ⟨k', v'⟩ := hd
      by_cases hkk : k' = k <;> simp [insertKV, hkk]

/-- One-step unfolding of `updateState`: the body always ends in `some`. -/
theorem updateState_eq (da : List String → EtcFileStatus → Bool)
    (s : EtcFileStatus) (p : List String) (nested : List (String × EtcTree))
    (os : EtcFileStatus) (op : List String) (onested : List (String × EtcTree)) :
    EtcTree.updateState da (.mk s p nested) (.mk os op onested)
      = some (.mk s p (mergePass da nested (deactPass da nested nested onested) onested)) := by
  simp [EtcTree.updateState]

theorem updateState_isSome (da : List String → EtcFileStatus → Bool) (s o : EtcTree) :
    (EtcTree.updateState da s o).isSome := by
  cases s with
  | mk ss sp sn =>
      cases o with
      | mk os op onl => rw [updateState_eq]; rfl

/-! The claims. -/

/-- C6: the status merge sends `(Unmanaged, Unmanaged)` to `Unmanaged` and
every other combination (including `(Managed, Managed)`) to `Managed`, and
is therefore a commutative, associative, idempotent OR with `Managed` as
true. -/
theorem C6_merge_lattice :
    (EtcFileStatus.merge .unmanaged .unmanaged = .unmanaged) ∧
    (EtcFileStatus.merge .managed .managed = .managed) ∧
    (EtcFileStatus.merge .managed .unmanaged = .managed) ∧
    (EtcFileStatus.merge .unmanaged .managed = .managed) ∧
    (∀ a b : EtcFileStatus, a.merge b = b.merge a) ∧
    (∀ a b c : EtcFileStatus, (a.merge b).merge c = a.merge (b.merge c)) ∧
    (∀ a : EtcFileStatus, a.merge a = a) := by
  refine ⟨rfl, rfl, rfl, rfl, ?_, ?_, ?_⟩
  · intro a b; cases a <;> cases b <;> rfl
  · intro a b c; cases a <;> cases b <;> cases c <;> rfl
  · intro a; cases a <;> rfl

/-- C9: `from_file` never fails because of a missing or unparsable state
file: a missing file yields a fresh root tree without error, an existing
but unparsable file also yields a fresh root tree (the failure is only
logged), and a parse failure is never propagated to the caller as an
error. -/
theorem C9_from_file_tolerant :
    (fromFile .missing = .ok EtcTree.rootNode) ∧
    (fromFile .unparsable = .ok EtcTree.rootNode) ∧
    (∀ t : EtcTree, fromFile (.parsed t) = .ok t) :=
  ⟨rfl, rfl, fun _ => rfl⟩

/-- C10: `update_state` never returns `None`: for every pair of trees and
every delete action it returns `Some` of a merged tree, at every recursion
level, despite its optional return type. -/
theorem C10_update_state_total (da : List String → EtcFileStatus → Bool) (s o : EtcTree) :
    ∃ r, EtcTree.updateState da s o = some r := by
  cases s with
  | mk ss sp sn =>
      cases o with
      | mk os op onl => exact ⟨_, updateState_eq da ss sp sn os op onl⟩

/-- C1: reconciling the new generation `scTree1` against the previous
generation `scTree2` (so `update_state(tree1, tree2, delete_action)` as in
the claim) with a delete action that fails exactly on
`/foo5/bar` yields a tree whose top-level child keys are exactly `foo`,
`foo2`, `foo3`, `foo5` (listed here in the insertion order of the
association-list model; the key set is what the claim asserts). -/
theorem C1_reconcile_scenario :
    (EtcTree.updateState scDelete scTree1 scTree2).map (fun t => t.nested.map Prod.fst)
      = some ["foo", "foo2", "foo3", "foo5"] := by
  simp [scTree1, scTree2, scDelete, buildTree, beq_iff_eq, EtcTree.updateState, mergePass,
    alterUpd, deactPass, EtcTree.deactivate, deactivateNested, EtcTree.registerManagedEntry,
    registerGo, lookupKey, containsKey, insertKV, EtcTree.rootNode, EtcTree.newNode,
    EtcTree.withStatus, EtcTree.nested, EtcTree.status, EtcTree.path, EtcTree.setStatus,
    EtcFileStatus.merge]

/-- C5: in `deactivate`, a node whose rebuilt children map is non-empty is
always kept, whatever its own status; a childless managed node is dropped
exactly when `delete_action` returns true and kept unchanged exactly when
it returns false; and in the concrete scenario a delete action failing
only on the managed leaf `/foo5/bar` keeps that leaf and its ancestor
`/foo5` while the sibling branch `/foo4` (whose actions returned true) is
removed. -/
theorem C5_deactivate_keep_or_retry :
    (∀ (da : List String → EtcFileStatus → Bool) (t : EtcTree),
      deactivateNested da t.nested ≠ [] →
      t.deactivate da = some (.mk t.status t.path (deactivateNested da t.nested))) ∧
    (∀ (da : List String → EtcFileStatus → Bool) (t : EtcTree),
      deactivateNested da t.nested = [] → t.status = .managed →
      (da t.path .managed = true → t.deactivate da = none) ∧
      (da t.path .managed = false →
        t.deactivate da = some (.mk .managed t.path []))) ∧
    ((scTree5.deactivate scDelete).map (fun t => t.nested.map Prod.fst) = some ["foo5"] ∧
     (scTree5.deactivate scDelete).map (fun t => t.isManaged ["foo5", "bar"]) = some true) := by
  refine ⟨?_, ?_, by decide, by decide⟩
  · intro da t h
    cases t with
    | mk s p nested =>
        simp only [EtcTree.nested] at h
        simp [EtcTree.deactivate, List.isEmpty_iff, h, EtcTree.status, EtcTree.path,
          EtcTree.nested]
  · intro da t h hs
    cases t with
    | mk s p nested =>
        simp only [EtcTree.nested] at h
        simp only [EtcTree.status] at hs
        subst hs
        constructor <;> intro hda <;> simp only [EtcTree.path] at hda <;>
          simp [EtcTree.deactivate, List.isEmpty_iff, h, hda, EtcTree.path]

/-- Witness for C5: a childless managed node under an unmanaged parent,
with a delete action that always fails, is kept together with its parent;
a childless managed node with a delete action that succeeds is dropped. -/
theorem C5_deactivate_keep_or_retry_witness :
    (EtcTree.mk .unmanaged [] [("a", EtcTree.mk .managed ["a"] [])]).deactivate
        (fun _ _ => false)
      = some (.mk .unmanaged [] [("a", EtcTree.mk .managed ["a"] [])]) ∧
    (EtcTree.mk .managed ["a"] []).deactivate (fun _ _ => true) = none := by
  constructor
  · exact C5_deactivate_keep_or_retry.1 (fun _ _ => false) _
      (by simp [deactivateNested, EtcTree.deactivate, EtcTree.nested])
  · exact (C5_deactivate_keep_or_retry.2.1 (fun _ _ => true)
      (EtcTree.mk .managed ["a"] []) rfl rfl).1 rfl

/-- Part of C2: the claim fails on the code in both of its corner cases.
Registering a path that already exists as an unmanaged intermediate node
preserves its status (the `alter` recursion returns an existing child
unchanged once the components run out), so `/a` stays unmanaged here; and
registering the root path itself is a no-op, so the root also stays
unmanaged. -/
theorem C2_counterexample :
    ((EtcTree.rootNode.registerManagedEntry ["a", "b"]).registerManagedEntry
        ["a"]).isManaged ["a"] = false ∧
    (EtcTree.rootNode.registerManagedEntry []).isManaged [] = false := by
  decide

/-- One-step unfolding of `getStatus` at a non-empty path. -/
theorem getStatus_cons (s : EtcFileStatus) (p : List String)
    (l : List (String × EtcTree)) (n : String) (rest : List String) :
    (EtcTree.mk s p l).getStatus (n :: rest)
      = (match lookupKey n l with
         | some subtree => subtree.getStatus rest
         | none => .unmanaged) := rfl

/-- One-step unfolding of `hasNode` at a non-empty path. -/
theorem hasNode_cons (s : EtcFileStatus) (p : List String)
    (l : List (String × EtcTree)) (n : String) (rest : List String) :
    hasNode (EtcTree.mk s p l) (n :: rest)
      = (match lookupKey n l with
         | some c => hasNode c rest
         | none => false) := rfl

/-- One-step unfolding of `registerGo` at a non-empty path, with the child
lookup already resolved. -/
theorem registerGo_cons (s : EtcFileStatus) (p : List String)
    (l : List (String × EtcTree)) (n : String) (rest acc : List String) :
    registerGo (.mk s p l) (n :: rest) acc
      = .mk s p (insertKV l n (registerGo
          (match lookupKey n l with
           | some c => c
           | none =>
               EtcTree.withStatus (acc ++ [n])
                 (if rest = [] then EtcFileStatus.managed else EtcFileStatus.unmanaged))
          rest (acc ++ [n]))) := rfl

/-- The status of `p` after `registerGo`, for non-root `p`: the old status
when a node for `p` already existed, `Managed` when it did not. -/
theorem registerGo_getStatus : ∀ (p : List String) (t : EtcTree) (acc : List String),
    p ≠ [] →
    (registerGo t p acc).getStatus p
      = (if hasNode t p then t.getStatus p else EtcFileStatus.managed)
  | [], _, _, h => absurd rfl h
  | n :: rest, t, acc, _ => by
    cases t with
    | mk s tp nested =>
        rw [registerGo_cons, getStatus_cons, lookupKey_insertKV, if_pos rfl,
          hasNode_cons, getStatus_cons]
        cases hl : lookupKey n nested with
        | some c =>
            cases rest with
            | nil => cases c with | mk cs cp cn => simp [hasNode, registerGo]
            | cons r rs =>
                have ih := registerGo_getStatus (r :: rs) c (acc ++ [n]) (by simp)
                simp [ih]
        | none =>
            cases rest with
            | nil => simp [registerGo, EtcTree.withStatus, EtcTree.getStatus, EtcTree.status]
            | cons r rs =>
                have ih := registerGo_getStatus (r :: rs)
                  (EtcTree.withStatus (acc ++ [n]) .unmanaged) (acc ++ [n]) (by simp)
                simp only [if_neg (List.cons_ne_nil r rs)]
                rw [ih]
                simp [hasNode, EtcTree.withStatus, lookupKey, EtcTree.nested]

/-- C2 (amended): registering a non-root path `p` makes `p` managed
whenever no node for `p` existed yet; when a node for `p` already exists
its status is preserved (so a pre-existing unmanaged intermediate node
stays unmanaged, contrary to the original claim), and registering the root
path leaves the tree unchanged (so the root's status is never upgraded
either). -/
theorem C2_register_status :
    (∀ (t : EtcTree) (p : List String), p ≠ [] →
      (t.registerManagedEntry p).getStatus p
        = (if hasNode t p then t.getStatus p else EtcFileStatus.managed)) ∧
    (∀ (t : EtcTree) (p : List String), p ≠ [] → hasNode t p = false →
      (t.registerManagedEntry p).isManaged p = true) ∧
    (∀ t : EtcTree, t.registerManagedEntry [] = t) := by
  refine ⟨fun t p h => registerGo_getStatus p t [] h, ?_,
    fun t => by cases t with | mk s p n => rfl⟩
  intro t p h hn
  simp [EtcTree.isManaged, EtcTree.registerManagedEntry, registerGo_getStatus p t [] h, hn]

/-- Witness for C2: instantiating the amended claim at a fresh root and
the path `/a` shows a fresh registration really is marked managed. -/
theorem C2_register_status_witness :
    (EtcTree.rootNode.registerManagedEntry ["a"]).getStatus ["a"] = EtcFileStatus.managed := by
  have h := C2_register_status.1 EtcTree.rootNode ["a"] (by decide)
  simpa [show hasNode EtcTree.rootNode ["a"] = false from by decide] using h

/-- Registering twice is idempotent at the `registerGo` level: the second
pass finds every component present and returns every subtree unchanged. -/
theorem registerGo_idem : ∀ (p : List String) (t : EtcTree) (acc : List String),
    registerGo (registerGo t p acc) p acc = registerGo t p acc
  | [], t, acc => by cases t with | mk s tp n => rfl
  | n :: rest, t, acc => by
    cases t with
    | mk s tp nested =>
        rw [registerGo_cons, registerGo_cons]
        simp [lookupKey_insertKV, registerGo_idem rest, insertKV_insertKV]

/-- Registration never downgrades a status: any path that reads `Managed`
before a registration still reads `Managed` after it. -/
theorem registerGo_mono : ∀ (p : List String) (t : EtcTree) (q acc : List String),
    t.getStatus q = .managed → (registerGo t p acc).getStatus q = .managed
  | [], t, q, acc, h => by cases t with | mk s tp n => exact h
  | n :: rest, t, q, acc, h => by
    cases t with
    | mk s tp nested =>
        rw [registerGo_cons]
        cases q with
        | nil => exact h
        | cons m qrest =>
            rw [getStatus_cons, lookupKey_insertKV]
            rw [getStatus_cons] at h
            by_cases hmn : n = m
            · subst hmn
              simp only [if_pos rfl]
              cases hl : lookupKey n nested with
              | some c =>
                  rw [hl] at h
                  exact registerGo_mono rest c qrest (acc ++ [n]) h
              | none => rw [hl] at h; cases h
            · simp only [if_neg hmn]
              exact h

/-- C8: registration is idempotent (the second call returns a tree equal,
children maps included at every level, to the first call's result) and
never downgrades any path from `Managed` to `Unmanaged`. -/
theorem C8_register_idempotent :
    (∀ (t : EtcTree) (p : List String),
      (t.registerManagedEntry p).registerManagedEntry p = t.registerManagedEntry p) ∧
    (∀ (t : EtcTree) (p q : List String),
      t.isManaged q = true → (t.registerManagedEntry p).isManaged q = true) := by
  constructor
  · intro t p
    exact registerGo_idem p t []
  · intro t p q h
    simp only [EtcTree.isManaged, beq_iff_eq] at h ⊢
    exact registerGo_mono p t q [] h

/-- Witness for C8: a path managed before an unrelated registration is
still managed after it. -/
theorem C8_register_idempotent_witness :
    ((EtcTree.rootNode.registerManagedEntry ["a"]).registerManagedEntry
        ["b"]).isManaged ["a"] = true :=
  C8_register_idempotent.2 (EtcTree.rootNode.registerManagedEntry ["a"]) ["b"] ["a"]
    (by decide)

/-- The child selected by the `alter` of `registerGo`: the existing child
when the key is present, a fresh node otherwise (managed exactly when it
is the terminal component). -/
def regChild (nested : List (String × EtcTree)) (n : String) (rest acc : List String) :
    EtcTree :=
  match lookupKey n nested with
  | some c => c
  | none =>
      EtcTree.withStatus (acc ++ [n])
        (if rest = [] then EtcFileStatus.managed else EtcFileStatus.unmanaged)

/-- `registerGo_cons` with the child expressed via `regChild`. -/
theorem registerGo_cons_regChild (s : EtcFileStatus) (p : List String)
    (l : List (String × EtcTree)) (n : String) (rest acc : List String) :
    registerGo (.mk s p l) (n :: rest) acc
      = .mk s p (insertKV l n (registerGo (regChild l n rest acc) rest (acc ++ [n]))) := rfl

theorem regChild_some {nested : List (String × EtcTree)} {n : String} {c : EtcTree}
    (rest acc : List String) (h : lookupKey n nested = some c) :
    regChild nested n rest acc = c := by
  simp [regChild, h]

theorem regChild_none {nested : List (String × EtcTree)} {n : String}
    (rest acc : List String) (h : lookupKey n nested = none) :
    regChild nested n rest acc
      = EtcTree.withStatus (acc ++ [n])
          (if rest = [] then EtcFileStatus.managed else EtcFileStatus.unmanaged) := by
  simp [regChild, h]

/-- Reading through an `insertKV` at the inserted key. -/
theorem getStatus_insert_head (s : EtcFileStatus) (p : List String)
    (l : List (String × EtcTree)) (n : String) (X : EtcTree) (q : List String) :
    (EtcTree.mk s p (insertKV l n X)).getStatus (n :: q) = X.getStatus q := by
  rw [getStatus_cons, lookupKey_insertKV, if_pos rfl]

/-- Reading through an `insertKV` at a different key. -/
theorem getStatus_insert_other {n m : String} (hmn : n ≠ m) (s : EtcFileStatus)
    (p : List String) (l : List (String × EtcTree)) (X : EtcTree) (q : List String) :
    (EtcTree.mk s p (insertKV l n X)).getStatus (m :: q)
      = (EtcTree.mk s p l).getStatus (m :: q) := by
  rw [getStatus_cons, getStatus_cons, lookupKey_insertKV, if_neg hmn]

/-- A path that reads `Managed` after `registerGo` either already read
`Managed` before, or is exactly the registered path. -/
theorem registerGo_managed_src : ∀ (p : List String) (t : EtcTree) (q acc : List String),
    (registerGo t p acc).getStatus q = .managed → t.getStatus q = .managed ∨ q = p
  | [], t, q, acc, h => by cases t with | mk s tp n => exact .inl h
  | n :: rest, t, q, acc, h => by
    cases t with
    | mk s tp nested =>
        rw [registerGo_cons_regChild] at h
        cases q with
        | nil => exact .inl h
        | cons m qrest =>
            by_cases hmn : n = m
            · subst hmn
              rw [getStatus_insert_head] at h
              rcases registerGo_managed_src rest (regChild nested n rest acc) qrest
                (acc ++ [n]) h with h' | h'
              · cases hl : lookupKey n nested with
                | some c =>
                    rw [regChild_some rest acc hl] at h'
                    exact .inl (by rw [getStatus_cons, hl]; exact h')
                | none =>
                    rw [regChild_none rest acc hl] at h'
                    cases qrest with
                    | nil =>
                        simp [EtcTree.withStatus, EtcTree.getStatus, EtcTree.status] at h'
                        cases hrest : rest with
                        | nil => exact .inr rfl
                        | cons r rs => rw [hrest] at h'; simp at h'
                    | cons m' qrs =>
                        exfalso
                        simp [EtcTree.withStatus, getStatus_cons, lookupKey] at h'
              · exact .inr (by rw [h'])
            · rw [getStatus_insert_other hmn] at h
              exact .inl h

/-- A path that reads `Managed` after folding registrations over a list of
paths either read `Managed` in the initial tree or is one of the
registered paths. -/
theorem foldl_register_managed_src : ∀ (ps : List (List String)) (t : EtcTree)
    (p : List String),
    (ps.foldl EtcTree.registerManagedEntry t).getStatus p = .managed →
    t.getStatus p = .managed ∨ p ∈ ps
  | [], _, _, h => .inl h
  | q :: qs, t, p, h => by
    rcases foldl_register_managed_src qs (t.registerManagedEntry q) p h with h' | h'
    · rcases registerGo_managed_src q t p [] h' with h'' | h''
      · exact .inl h''
      · exact .inr (by simp [h''])
    · exact .inr (by simp [h'])

/-- No path of the fresh root tree reads `Managed`. -/
theorem rootNode_not_managed : ∀ p : List String,
    EtcTree.rootNode.getStatus p ≠ .managed
  | [] => by decide
  | n :: rest => by
    simp [EtcTree.rootNode, EtcTree.newNode, EtcTree.withStatus, getStatus_cons, lookupKey]

/-- C7: a path never registered is never managed in a tree built from a
fresh root by registrations; `get_status` short-circuits to `Unmanaged`
(without error) as soon as a component is absent from the current node's
children, including for paths below existing nodes; and in the fourteen
registration scenario `/foo5/baz/bar` is managed while `/foo` (an
intermediate node) and `/foo/nonexistent` (below an existing node) are
not. -/
theorem C7_unregistered_unmanaged :
    (∀ (ps : List (List String)) (p : List String), p ∉ ps →
      (buildTree ps).isManaged p = false) ∧
    (∀ (t : EtcTree) (n : String) (rest : List String),
      lookupKey n t.nested = none → t.getStatus (n :: rest) = .unmanaged) ∧
    (scTreeBig.isManaged ["foo5", "baz", "bar"] = true ∧
     scTreeBig.isManaged ["foo"] = false ∧
     scTreeBig.isManaged ["foo", "nonexistent"] = false) := by
  refine ⟨?_, ?_, by decide, by decide, by decide⟩
  · intro ps p hp
    simp only [EtcTree.isManaged, beq_eq_false_iff_ne, ne_eq]
    intro hman
    rcases foldl_register_managed_src ps EtcTree.rootNode p hman with h | h
    · exact rootNode_not_managed p h
    · exact hp h
  · intro t n rest h
    cases t with
    | mk s tp nested =>
        simp only [EtcTree.nested] at h
        rw [getStatus_cons, h]

/-- Witness for C7: the unregistered path `/b` is unmanaged in the tree
built by registering only `/a`, and looking up a key absent from the
root's children short-circuits to `Unmanaged`. -/
theorem C7_unregistered_unmanaged_witness :
    (buildTree [["a"]]).isManaged ["b"] = false ∧
    EtcTree.rootNode.getStatus ["a"] = .unmanaged := by
  constructor
  · exact C7_unregistered_unmanaged.1 [["a"]] ["b"] (by decide)
  · exact C7_unregistered_unmanaged.2.1 EtcTree.rootNode "a" [] rfl

/-! Preservation of the no-dangling-unmanaged-leaf invariant. -/

theorem registerGo_nil : ∀ (t : EtcTree) (acc : List String), registerGo t [] acc = t
  | .mk _ _ _, _ => rfl

theorem noDangling_mk (s : EtcFileStatus) (p : List String) :
    ∀ l : List (String × EtcTree), l ≠ [] → noDanglingNested l = true →
    noDangling (.mk s p l) = true
  | [], h, _ => absurd rfl h
  | _ :: _, _, h2 => by simp [noDangling, h2]

theorem lookup_noDangling : ∀ (l : List (String × EtcTree)) (k : String) (c : EtcTree),
    noDanglingNested l = true → lookupKey k l = some c → noDangling c = true
  | [], _, _, _, hl => by cases hl
  | (k', t) :: ts, k, c, hnd, hl => by
    simp only [noDanglingNested, Bool.and_eq_true] at hnd
    simp only [lookupKey] at hl
    by_cases hk : k' = k
    · rw [if_pos hk] at hl
      injection hl with h2
      subst h2
      exact hnd.1
    · rw [if_neg hk] at hl
      exact lookup_noDangling ts k c hnd.2 hl

theorem insertKV_noDangling : ∀ (l : List (String × EtcTree)) (k : String) (v : EtcTree),
    noDanglingNested l = true → noDangling v = true →
    noDanglingNested (insertKV l k v) = true
  | [], k, v, _, hv => by simp [insertKV, noDanglingNested, hv]
  | (k', v') :: ts, k, v, hl, hv => by
    simp only [noDanglingNested, Bool.and_eq_true] at hl
    by_cases hk : k' = k
    · simp [insertKV, hk, noDanglingNested, hv, hl.2]
    · simp [insertKV, hk, noDanglingNested, hl.1,
        insertKV_noDangling ts k v hl.2 hv]

theorem regChild_noDangling_nil (nested : List (String × EtcTree)) (n : String)
    (acc : List String) (h : noDanglingNested nested = true) :
    noDangling (regChild nested n [] acc) = true := by
  cases hl : lookupKey n nested with
  | some c => rw [regChild_some [] acc hl]; exact lookup_noDangling nested n c h hl
  | none =>
      rw [regChild_none [] acc hl]
      simp [EtcTree.withStatus, noDangling, noDanglingNested]

theorem regChild_nested_ok (nested : List (String × EtcTree)) (n : String)
    (rest acc : List String) (h : noDanglingNested nested = true) :
    noDanglingNested (regChild nested n rest acc).nested = true := by
  cases hl : lookupKey n nested with
  | some c =>
      rw [regChild_some rest acc hl]
      have hc := lookup_noDangling nested n c h hl
      cases c with
      | mk cs cp cn =>
          simp only [noDangling, Bool.and_eq_true] at hc
          simpa [EtcTree.nested] using hc.2
  | none => rw [regChild_none rest acc hl]; rfl

/-- Registering a non-empty path into a node with well-formed children
yields a node satisfying the full invariant (it has at least the
registered child). -/
theorem registerGo_noDangling : ∀ (p : List String) (t : EtcTree) (acc : List String),
    p ≠ [] → noDanglingNested t.nested = true →
    noDangling (registerGo t p acc) = true
  | [], _, _, h, _ => absurd rfl h
  | n :: rest, .mk s tp nested, acc, _, hnd => by
    simp only [EtcTree.nested] at hnd
    rw [registerGo_cons_regChild]
    have hX : noDangling (registerGo (regChild nested n rest acc) rest (acc ++ [n])) = true := by
      cases hrest : rest with
      | nil =>
          rw [registerGo_nil]
          exact regChild_noDangling_nil nested n acc hnd
      | cons r rs =>
          exact registerGo_noDangling (r :: rs) _ _ (by simp)
            (regChild_nested_ok nested n (r :: rs) acc hnd)
    exact noDangling_mk s tp _ (insertKV_ne_nil nested n _)
      (insertKV_noDangling nested n _ hnd hX)

mutual

/-- A subtree surviving `deactivate` satisfies the full invariant,
whatever the input tree looked like. -/
theorem deactivate_noDangling : ∀ (da : List String → EtcFileStatus → Bool)
    (t r : EtcTree), t.deactivate da = some r → noDangling r = true
  | da, .mk s p nested, r, h => by
    have hl := deactivateNested_noDangling da nested
    simp only [EtcTree.deactivate] at h
    by_cases he : (deactivateNested da nested).isEmpty = true
    · rw [if_pos he] at h
      cases s with
      | managed =>
          by_cases hda : da p EtcFileStatus.managed = true
          · rw [if_pos hda] at h; cases h
          · rw [if_neg hda] at h
            injection h with h2
            subst h2
            simp [noDangling, hl]
      | unmanaged => cases h
    · rw [if_neg he] at h
      injection h with h2
      subst h2
      simp only [Bool.not_eq_true] at he
      simp [noDangling, hl, he]

/-- The children map rebuilt by `deactivateNested` contains only subtrees
satisfying the invariant. -/
theorem deactivateNested_noDangling : ∀ (da : List String → EtcFileStatus → Bool)
    (l : List (String × EtcTree)), noDanglingNested (deactivateNested da l) = true
  | _, [] => rfl
  | da, (k, t) :: ts => by
    have ihl := deactivateNested_noDangling da ts
    simp only [deactivateNested]
    cases hd : t.deactivate da with
    | some t' =>
        have ht := deactivate_noDangling da t t' hd
        simp [noDanglingNested, ht, ihl]
    | none => exact ihl

end

theorem sizeOf_lt_of_mem_nested : ∀ (l : List (String × EtcTree)) (k : String) (t : EtcTree),
    (k, t) ∈ l → sizeOf t < sizeOf l
  | (k', t') :: ts, k, t, h => by
    rcases List.mem_cons.mp h with heq | hmem
    · cases heq
      simp
      omega
    · have := sizeOf_lt_of_mem_nested ts k t hmem
      simp
      omega

theorem deactPass_props (da : List String → EtcFileStatus → Bool)
    (orig : List (String × EtcTree)) :
    ∀ (l base : List (String × EtcTree)), noDanglingNested base = true →
    noDanglingNested (deactPass da orig base l) = true ∧
      (deactPass da orig base l = [] → base = [])
  | [], base, hb => ⟨hb, fun h => h⟩
  | (k, ot) :: rest, base, hb => by
    simp only [deactPass]
    by_cases hc : containsKey k orig = true
    · rw [if_pos hc]
      exact deactPass_props da orig rest base hb
    · rw [if_neg hc]
      cases hd : ot.deactivate da with
      | some t' =>
          have hins := insertKV_noDangling base k t' hb
            (deactivate_noDangling da ot t' hd)
          have hrec := deactPass_props da orig rest (insertKV base k t') hins
          exact ⟨hrec.1, fun h => absurd (hrec.2 h) (insertKV_ne_nil base k t')⟩
      | none => exact deactPass_props da orig rest base hb

/-- Properties of `alterUpd`, given the recursive properties of
`updateState` against the fixed other-side subtree `ot`. -/
theorem alterUpd_props (da : List String → EtcFileStatus → Bool) (k : String)
    (ot : EtcTree)
    (IH : ∀ (t r : EtcTree), noDangling t = true →
      EtcTree.updateState da t ot = some r →
      r.status = t.status ∧ (r.nested = [] → t.nested = []) ∧
        noDanglingNested r.nested = true) :
    ∀ base : List (String × EtcTree), noDanglingNested base = true →
    noDanglingNested (alterUpd da base k ot) = true ∧
      (alterUpd da base k ot = [] → base = [])
  | [], _ => by
    have h0 : alterUpd da [] k ot = [] := by simp [alterUpd]
    exact ⟨by rw [h0]; rfl, fun _ => rfl⟩
  | (k', t) :: ts, hb => by
    simp only [noDanglingNested, Bool.and_eq_true] at hb
    simp only [alterUpd]
    by_cases hk : k' = k
    · rw [if_pos hk]
      cases hu : EtcTree.updateState da t ot with
      | some nt =>
          have hprops := IH t nt hb.1 hu
          have hnt : noDangling (nt.setStatus (nt.status.merge ot.status)) = true := by
            cases nt with
            | mk ns np nn =>
                simp only [EtcTree.setStatus, EtcTree.status, EtcTree.nested] at hprops ⊢
                cases hnn : nn with
                | nil =>
                    have hTnil := hprops.2.1 hnn
                    cases t with
                    | mk us up un =>
                        simp only [EtcTree.nested] at hTnil
                        subst hTnil
                        simp only [noDangling, List.isEmpty_nil, Bool.not_true,
                          Bool.false_or, Bool.and_eq_true, beq_iff_eq] at hb
                        have : ns = .managed := by
                          rw [hprops.1]
                          simpa [EtcTree.status] using hb.1.1
                        subst this
                        simp [noDangling, noDanglingNested, EtcFileStatus.merge]
                | cons hd tl =>
                    have := hprops.2.2
                    rw [hnn] at this
                    simp [noDangling, this]
          simp [noDanglingNested, hnt, hb.2]
      | none =>
          have := updateState_isSome da t ot
          rw [hu] at this
          cases this
    · rw [if_neg hk]
      have hrec := alterUpd_props da k ot IH ts hb.2
      refine ⟨by simp [noDanglingNested, hb.1, hrec.1], fun h => by cases h⟩

/-- Properties of `mergePass`, given the recursive properties of
`updateState` against every other-side subtree occurring in the pass. -/
theorem mergePass_props (da : List String → EtcFileStatus → Bool)
    (orig : List (String × EtcTree)) :
    ∀ (l base : List (String × EtcTree)),
    (∀ (k : String) (ot : EtcTree), (k, ot) ∈ l →
      ∀ (t r : EtcTree), noDangling t = true →
        EtcTree.updateState da t ot = some r →
        r.status = t.status ∧ (r.nested = [] → t.nested = []) ∧
          noDanglingNested r.nested = true) →
    noDanglingNested base = true →
    noDanglingNested (mergePass da orig base l) = true ∧
      (mergePass da orig base l = [] → base = [])
  | [], base, _, hb => by
    have h0 : mergePass da orig base [] = base := by simp [mergePass]
    exact ⟨by rw [h0]; exact hb, fun h => by rw [h0] at h; exact h⟩
  | (k, ot) :: rest, base, hIH, hb => by
    simp only [mergePass]
    by_cases hc : containsKey k orig = true
    · rw [if_pos hc]
      have hsingle := alterUpd_props da k ot
        (hIH k ot (List.mem_cons_self (k, ot) rest)) base hb
      have hrec := mergePass_props da orig rest (alterUpd da base k ot)
        (fun k' ot' hmem => hIH k' ot' (List.mem_cons_of_mem _ hmem)) hsingle.1
      exact ⟨hrec.1, fun h => hsingle.2 (hrec.2 h)⟩
    · rw [if_neg hc]
      exact mergePass_props da orig rest base
        (fun k' ot' hmem => hIH k' ot' (List.mem_cons_of_mem _ hmem)) hb

/-- Core preservation property of `update_state`: starting from a tree
whose strict subtrees satisfy the invariant, the merged result keeps the
root's status, can only be childless if the root already was, and all its
strict subtrees satisfy the invariant. -/
theorem updateState_props : ∀ (fuel : Nat) (o s : EtcTree)
    (da : List String → EtcFileStatus → Bool) (r : EtcTree),
    sizeOf o ≤ fuel → noDangling s = true → EtcTree.updateState da s o = some r →
    r.status = s.status ∧ (r.nested = [] → s.nested = []) ∧
      noDanglingNested r.nested = true
  | fuel + 1, .mk os op onested, .mk ss sp snested, da, r, hsz, hnd, hupd => by
    rw [updateState_eq] at hupd
    injection hupd with h2
    subst h2
    simp only [noDangling, Bool.and_eq_true] at hnd
    have hIH : ∀ (k : String) (ot : EtcTree), (k, ot) ∈ onested →
        ∀ (t r' : EtcTree), noDangling t = true →
          EtcTree.updateState da t ot = some r' →
          r'.status = t.status ∧ (r'.nested = [] → t.nested = []) ∧
            noDanglingNested r'.nested = true := by
      intro k ot hmem t r' hnd' hupd'
      have h1 : sizeOf ot < sizeOf onested := sizeOf_lt_of_mem_nested onested k ot hmem
      have h2 : sizeOf onested < sizeOf (EtcTree.mk os op onested) := by
        have := EtcTree.mk.sizeOf_spec os op onested
        omega
      exact updateState_props fuel ot t da r' (by omega) hnd' hupd'
    have hd := deactPass_props da snested onested snested hnd.2
    have hm := mergePass_props da snested onested
      (deactPass da snested snested onested) hIH hd.1
    refine ⟨rfl, fun h => ?_, hm.1⟩
    simp only [EtcTree.nested] at h ⊢
    exact hd.2 (hm.2 h)
  | 0, .mk os op onested, s, da, r, hsz, _, _ => by
    exfalso
    have := EtcTree.mk.sizeOf_spec os op onested
    omega

/-- Part of C3: the claim fails at `root_node` itself — the fresh root is
an unmanaged node with an empty children map, i.e. exactly the dangling
unmanaged leaf the invariant forbids (and `update_state` of two fresh
roots returns that same node, which is what the source's debug assertion
guards against). -/
theorem C3_counterexample : noDangling EtcTree.rootNode = false := by decide

/-- C3 (amended): away from the root the invariant does hold: the root's
strict subtrees satisfy it after `root_node` (vacuously), it is preserved
by registration, every tree surviving `deactivate` satisfies it in full
(root included), and `update_state` preserves it for the strict subtrees
of the result.  The root itself is exempt: it is created unmanaged and
childless and its status is never upgraded. -/
theorem C3_no_dangling_invariant :
    (childrenOk EtcTree.rootNode = true) ∧
    (∀ (t : EtcTree) (p : List String), childrenOk t = true →
      childrenOk (t.registerManagedEntry p) = true) ∧
    (∀ (da : List String → EtcFileStatus → Bool) (t r : EtcTree),
      t.deactivate da = some r → noDangling r = true) ∧
    (∀ (da : List String → EtcFileStatus → Bool) (s o r : EtcTree),
      childrenOk s = true → EtcTree.updateState da s o = some r →
      childrenOk r = true) := by
  refine ⟨rfl, ?_, deactivate_noDangling, ?_⟩
  · intro t p hok
    cases t with
    | mk s tp nested =>
        cases p with
        | nil => exact hok
        | cons n rest =>
            show childrenOk (registerGo (.mk s tp nested) (n :: rest) []) = true
            rw [registerGo_cons_regChild]
            simp only [childrenOk] at hok ⊢
            refine insertKV_noDangling nested n _ hok ?_
            cases rest with
            | nil => rw [registerGo_nil]; exact regChild_noDangling_nil nested n [] hok
            | cons r rs =>
                exact registerGo_noDangling (r :: rs) _ _ (by simp)
                  (regChild_nested_ok nested n (r :: rs) [] hok)
  · intro da s o r hok hupd
    cases s with
    | mk ss sp snested =>
        cases o with
        | mk os op onested =>
            rw [updateState_eq] at hupd
            injection hupd with h2
            subst h2
            simp only [childrenOk] at hok ⊢
            have hIH : ∀ (k : String) (ot : EtcTree), (k, ot) ∈ onested →
                ∀ (t r' : EtcTree), noDangling t = true →
                  EtcTree.updateState da t ot = some r' →
                  r'.status = t.status ∧ (r'.nested = [] → t.nested = []) ∧
                    noDanglingNested r'.nested = true := by
              intro k ot hmem t r' hnd' hupd'
              exact updateState_props (sizeOf ot) ot t da r' le_rfl hnd' hupd'
            have hd := deactPass_props da snested onested snested hok
            exact (mergePass_props da snested onested
              (deactPass da snested snested onested) hIH hd.1).1

/-- Witness for C3: registration into a fresh root, and an `update_state`
of a one-child tree against a fresh root, both yield trees whose strict
subtrees satisfy the invariant. -/
theorem C3_no_dangling_invariant_witness :
    childrenOk (EtcTree.rootNode.registerManagedEntry ["a", "b"]) = true ∧
    childrenOk
      (EtcTree.mk EtcFileStatus.unmanaged []
        [("a", EtcTree.mk EtcFileStatus.managed ["a"] [])]) = true := by
  constructor
  · exact C3_no_dangling_invariant.2.1 EtcTree.rootNode ["a", "b"] rfl
  · exact C3_no_dangling_invariant.2.2.2 (fun _ _ => true)
      (EtcTree.mk EtcFileStatus.unmanaged []
        [("a", EtcTree.mk EtcFileStatus.managed ["a"] [])])
      EtcTree.rootNode _ (by decide)
      (by simp [EtcTree.rootNode, EtcTree.newNode, EtcTree.withStatus, updateState_eq,
        mergePass, deactPass])

/-! Shape of the instrumented deactivation's call list. -/

theorem deactivateNestedI_snd (da : List String → EtcFileStatus → Bool) (k : String)
    (t : EtcTree) (ts : List (String × EtcTree)) :
    (deactivateNestedI da ((k, t) :: ts)).2
      = (t.deactivateI da).2 ++ (deactivateNestedI da ts).2 := by
  simp only [deactivateNestedI]
  cases (t.deactivateI da).1 <;> rfl

theorem deactivateI_snd_managed (da : List String → EtcFileStatus → Bool)
    (p : List String) (nested : List (String × EtcTree))
    (he : (deactivateNestedI da nested).1.isEmpty = true) :
    ((EtcTree.mk .managed p nested).deactivateI da).2
      = (deactivateNestedI da nested).2 ++ [(p, EtcFileStatus.managed)] := by
  simp only [EtcTree.deactivateI, he]
  by_cases hda : da p EtcFileStatus.managed = true <;> simp [hda]

theorem deactivateI_snd_managed_ne (da : List String → EtcFileStatus → Bool)
    (p : List String) (nested : List (String × EtcTree))
    (he : (deactivateNestedI da nested).1.isEmpty = false) :
    ((EtcTree.mk .managed p nested).deactivateI da).2
      = (deactivateNestedI da nested).2 := by
  simp only [EtcTree.deactivateI, he]
  simp

theorem deactivateI_snd_unmanaged (da : List String → EtcFileStatus → Bool)
    (p : List String) (nested : List (String × EtcTree)) :
    ((EtcTree.mk .unmanaged p nested).deactivateI da).2
      = (deactivateNestedI da nested).2 := by
  simp only [EtcTree.deactivateI]
  by_cases he : (deactivateNestedI da nested).1.isEmpty = true <;> simp [he]

mutual

/-- The instrumentation is faithful: the tree returned by `deactivateI` is
exactly the tree returned by `deactivate`. -/
theorem deactivateI_fst : ∀ (da : List String → EtcFileStatus → Bool) (t : EtcTree),
    (t.deactivateI da).1 = t.deactivate da
  | da, .mk s p nested => by
    have h := deactivateNestedI_fst da nested
    simp only [EtcTree.deactivateI, EtcTree.deactivate, h]
    cases s with
    | managed =>
        by_cases he : (deactivateNested da nested).isEmpty = true <;>
          by_cases hda : da p EtcFileStatus.managed = true <;>
            simp [he, hda]
    | unmanaged =>
        by_cases he : (deactivateNested da nested).isEmpty = true <;> simp [he]

theorem deactivateNestedI_fst : ∀ (da : List String → EtcFileStatus → Bool)
    (l : List (String × EtcTree)),
    (deactivateNestedI da l).1 = deactivateNested da l
  | _, [] => rfl
  | da, (k, t) :: ts => by
    have h1 := deactivateI_fst da t
    have h2 := deactivateNestedI_fst da ts
    simp only [deactivateNestedI, deactivateNested, h1, h2]
    cases hd : t.deactivate da <;> simp [hd, h2]

end

mutual

/-- Every recorded `delete_action` call carries status `Managed`: the
callback is only ever invoked for managed nodes. -/
theorem deactivateI_calls_managed : ∀ (da : List String → EtcFileStatus → Bool)
    (t : EtcTree) (c : List String × EtcFileStatus),
    c ∈ (t.deactivateI da).2 → c.2 = EtcFileStatus.managed
  | da, .mk s p nested, c, hc => by
    cases s with
    | managed =>
        by_cases he : (deactivateNestedI da nested).1.isEmpty = true
        · rw [deactivateI_snd_managed da p nested he] at hc
          rcases List.mem_append.mp hc with h | h
          · exact deactivateNestedI_calls_managed da nested c h
          · rw [List.mem_singleton] at h
            rw [h]
        · rw [deactivateI_snd_managed_ne da p nested (by simpa using he)] at hc
          exact deactivateNestedI_calls_managed da nested c hc
    | unmanaged =>
        rw [deactivateI_snd_unmanaged da p nested] at hc
        exact deactivateNestedI_calls_managed da nested c hc

theorem deactivateNestedI_calls_managed : ∀ (da : List String → EtcFileStatus → Bool)
    (l : List (String × EtcTree)) (c : List String × EtcFileStatus),
    c ∈ (deactivateNestedI da l).2 → c.2 = EtcFileStatus.managed
  | _, [], c, hc => absurd hc (List.not_mem_nil c)
  | da, (k, t) :: ts, c, hc => by
    rw [deactivateNestedI_snd] at hc
    rcases List.mem_append.mp hc with h | h
    · exact deactivateI_calls_managed da t c h
    · exact deactivateNestedI_calls_managed da ts c h

end

mutual

/-- The callback is invoked at most once per node: the call list is never
longer than the number of nodes. -/
theorem deactivateI_calls_length : ∀ (da : List String → EtcFileStatus → Bool)
    (t : EtcTree), (t.deactivateI da).2.length ≤ nodeCount t
  | da, .mk s p nested => by
    have hl := deactivateNestedI_calls_length da nested
    have hcount : nodeCount (EtcTree.mk s p nested) = 1 + nodeCountNested nested := rfl
    cases s with
    | managed =>
        by_cases he : (deactivateNestedI da nested).1.isEmpty = true
        · rw [deactivateI_snd_managed da p nested he, hcount, List.length_append]
          simp only [List.length_cons, List.length_nil]
          omega
        · rw [deactivateI_snd_managed_ne da p nested (by simpa using he), hcount]
          omega
    | unmanaged =>
        rw [deactivateI_snd_unmanaged da p nested, hcount]
        omega

theorem deactivateNestedI_calls_length : ∀ (da : List String → EtcFileStatus → Bool)
    (l : List (String × EtcTree)),
    (deactivateNestedI da l).2.length ≤ nodeCountNested l
  | _, [] => by simp [deactivateNestedI]
  | da, (k, t) :: ts => by
    have h1 := deactivateI_calls_length da t
    have h2 := deactivateNestedI_calls_length da ts
    have hcount : nodeCountNested ((k, t) :: ts) = nodeCount t + nodeCountNested ts := rfl
    rw [deactivateNestedI_snd, List.length_append, hcount]
    omega

end

/-- In a list extended by one element, the element at the index right
after the first block is that element. -/
theorem pre_key_index {p q : List String} {k : String} (h : (p ++ [k]) <+: q) :
    q[p.length]? = some k := by
  rcases h with ⟨r, hr⟩
  subst hr
  rw [List.append_assoc, List.getElem?_append_right (le_refl p.length)]
  simp

mutual

/-- With well-formed path bookkeeping, every recorded call path extends
the node's own path, and the call paths are pairwise distinct (the
callback is invoked at most once per path). -/
theorem deactivateI_calls_wf : ∀ (da : List String → EtcFileStatus → Bool)
    (t : EtcTree), wfPaths t = true →
    (∀ q ∈ (t.deactivateI da).2.map Prod.fst, t.path.isPrefixOf q = true) ∧
    ((t.deactivateI da).2.map Prod.fst).Nodup
  | da, .mk s p nested, hwf => by
    simp only [wfPaths, Bool.and_eq_true] at hwf
    have hnest := deactivateNestedI_calls_wf da p nested hwf.1 hwf.2
    have hpre : ∀ q ∈ (deactivateNestedI da nested).2.map Prod.fst,
        p.isPrefixOf q = true := by
      intro q hq
      rcases hnest.1 q hq with ⟨k, _, hk⟩
      rw [List.isPrefixOf_iff_prefix] at hk ⊢
      exact (List.prefix_append p [k]).trans hk
    have hlen : ∀ q ∈ (deactivateNestedI da nested).2.map Prod.fst,
        p.length < q.length := by
      intro q hq
      rcases hnest.1 q hq with ⟨k, _, hk⟩
      rw [List.isPrefixOf_iff_prefix] at hk
      have hle := hk.length_le
      rw [List.length_append, List.length_cons, List.length_nil] at hle
      omega
    cases s with
    | managed =>
        by_cases he : (deactivateNestedI da nested).1.isEmpty = true
        · rw [deactivateI_snd_managed da p nested he, List.map_append]
          constructor
          · intro q hq
            rcases List.mem_append.mp hq with h | h
            · exact hpre q h
            · simp only [List.map_cons, List.map_nil, List.mem_singleton] at h
              subst h
              rw [List.isPrefixOf_iff_prefix]
              exact List.prefix_rfl
          · refine List.Nodup.append hnest.2 ?_ ?_
            · simp
            · simp only [List.map_cons, List.map_nil, List.disjoint_singleton]
              intro hmem
              exact absurd (hlen p hmem) (lt_irrefl p.length)
        · rw [deactivateI_snd_managed_ne da p nested (by simpa using he)]
          exact ⟨hpre, hnest.2⟩
    | unmanaged =>
        rw [deactivateI_snd_unmanaged da p nested]
        exact ⟨hpre, hnest.2⟩

theorem deactivateNestedI_calls_wf : ∀ (da : List String → EtcFileStatus → Bool)
    (p : List String) (l : List (String × EtcTree)),
    nodupKeys l = true → wfPathsNested p l = true →
    (∀ q ∈ (deactivateNestedI da l).2.map Prod.fst,
      ∃ k, containsKey k l = true ∧ (p ++ [k]).isPrefixOf q = true) ∧
    ((deactivateNestedI da l).2.map Prod.fst).Nodup
  | da, p, [], _, _ => by
    constructor
    · intro q hq
      exact absurd hq (List.not_mem_nil q)
    · exact List.nodup_nil
  | da, p, (k, c) :: ts, hnd, hwf => by
    simp only [nodupKeys, Bool.and_eq_true] at hnd
    simp only [wfPathsNested, Bool.and_eq_true] at hwf
    have hcp : c.path = p ++ [k] := by
      have h := hwf.1.1
      rwa [beq_iff_eq] at h
    have hc := deactivateI_calls_wf da c hwf.1.2
    have hts := deactivateNestedI_calls_wf da p ts hnd.2 hwf.2
    have hkey : containsKey k ((k, c) :: ts) = true := by simp [containsKey]
    rw [deactivateNestedI_snd, List.map_append]
    constructor
    · intro q hq
      rcases List.mem_append.mp hq with h | h
      · refine ⟨k, hkey, ?_⟩
        have hp := hc.1 q h
        rwa [hcp] at hp
      · rcases hts.1 q h with ⟨m, hm, hpm⟩
        exact ⟨m, by simp [containsKey, hm], hpm⟩
    · refine List.Nodup.append hc.2 hts.2 ?_
      intro q hq1 hq2
      have h1 := hc.1 q hq1
      rw [hcp, List.isPrefixOf_iff_prefix] at h1
      rcases hts.1 q hq2 with ⟨m, hm, h2⟩
      rw [List.isPrefixOf_iff_prefix] at h2
      have e1 := pre_key_index h1
      have e2 := pre_key_index h2
      have hkm : k = m := Option.some.inj (e1.symm.trans e2)
      subst hkm
      have hfalse := hnd.1
      rw [Bool.not_eq_true'] at hfalse
      rw [hm] at hfalse
      cases hfalse

end

/-- An unmanaged node's own path never appears among the call paths: the
node is dropped (or kept for its children) silently. -/
theorem deactivateI_unmanaged_no_self (da : List String → EtcFileStatus → Bool)
    (t : EtcTree) (hwf : wfPaths t = true) (hs : t.status = .unmanaged) :
    t.path ∉ (t.deactivateI da).2.map Prod.fst := by
  cases t with
  | mk s p nested =>
      simp only [EtcTree.status] at hs
      subst hs
      simp only [EtcTree.path]
      rw [deactivateI_snd_unmanaged]
      simp only [wfPaths, Bool.and_eq_true] at hwf
      intro hmem
      rcases (deactivateNestedI_calls_wf da p nested hwf.1 hwf.2).1 p hmem with ⟨k, _, hpre⟩
      rw [List.isPrefixOf_iff_prefix] at hpre
      have hle := hpre.length_le
      rw [List.length_append, List.length_cons, List.length_nil] at hle
      omega

/-- C4: the `delete_action` contract during a single `deactivate` pass.
The instrumented `deactivateI` returns the same tree as `deactivate`
together with the list of callback invocations; every invocation carries
status `Managed` (so the callback only fires for managed nodes that
became childless — the unmanaged childless case drops the node without a
call), there are at most as many invocations as nodes, with well-formed
path bookkeeping the invoked paths are pairwise distinct (at most one
call per node), and an unmanaged node's own path is never invoked. -/
theorem C4_delete_action_calls :
    (∀ (da : List String → EtcFileStatus → Bool) (t : EtcTree),
      (t.deactivateI da).1 = t.deactivate da) ∧
    (∀ (da : List String → EtcFileStatus → Bool) (t : EtcTree)
      (c : List String × EtcFileStatus), c ∈ (t.deactivateI da).2 →
      c.2 = EtcFileStatus.managed) ∧
    (∀ (da : List String → EtcFileStatus → Bool) (t : EtcTree),
      (t.deactivateI da).2.length ≤ nodeCount t) ∧
    (∀ (da : List String → EtcFileStatus → Bool) (t : EtcTree), wfPaths t = true →
      ((t.deactivateI da).2.map Prod.fst).Nodup) ∧
    (∀ (da : List String → EtcFileStatus → Bool) (t : EtcTree), wfPaths t = true →
      t.status = .unmanaged → t.path ∉ (t.deactivateI da).2.map Prod.fst) :=
  ⟨deactivateI_fst, deactivateI_calls_managed, deactivateI_calls_length,
    fun da t hwf => (deactivateI_calls_wf da t hwf).2,
    deactivateI_unmanaged_no_self⟩

/-- Witness for C4: on a concrete well-formed two-node tree the call
paths are distinct and the unmanaged root's path is not among them. -/
theorem C4_delete_action_calls_witness :
    ((((EtcTree.mk EtcFileStatus.unmanaged []
        [("a", EtcTree.mk EtcFileStatus.managed ["a"] [])]).deactivateI
        (fun _ _ => true)).2.map Prod.fst).Nodup) ∧
    ((EtcTree.mk EtcFileStatus.unmanaged []
        [("a", EtcTree.mk EtcFileStatus.managed ["a"] [])]).path ∉
      (((EtcTree.mk EtcFileStatus.unmanaged []
        [("a", EtcTree.mk EtcFileStatus.managed ["a"] [])]).deactivateI
        (fun _ _ => true)).2.map Prod.fst)) :=
  ⟨C4_delete_action_calls.2.2.2.1 (fun _ _ => true)
      (EtcTree.mk EtcFileStatus.unmanaged []
        [("a", EtcTree.mk EtcFileStatus.managed ["a"] [])]) (by decide),
    C4_delete_action_calls.2.2.2.2 (fun _ _ => true)
      (EtcTree.mk EtcFileStatus.unmanaged []
        [("a", EtcTree.mk EtcFileStatus.managed ["a"] [])]) (by decide) rfl⟩
